import Mathlib

/-
Verification of the rank-based standardization transform (`scaled_ranks`) and
the sparse squared-L2 distance strategies of this repository.

Raw values and standardized ranks are modelled over ℚ (exact arithmetic, as
the spec requires for refinement claims); the final standardized scores,
which multiply by 0.5 / sqrt(sum_squares), live in ℝ via Real.sqrt.
Callback-based outputs are modelled as the list of calls, in call order.
-/

namespace SparseL2

/-- C++ `RankedVector` = `std::vector<std::pair<double, int>>`: entries are
(value, position), sorted ascending by value by the callers. -/
abbrev RankedVector := List (ℚ × ℕ)

/-- The maximal leading run of entries whose value equals `v`; this mirrors the
do-while in `scaled_ranks` that advances `copy` while `copy->first == cIt->first`. -/
def runOf (v : ℚ) (l : RankedVector) : RankedVector :=
  l.takeWhile (fun e => e.1 == v)

/-- What remains after `runOf`. -/
def restOf (v : ℚ) (l : RankedVector) : RankedVector :=
  l.dropWhile (fun e => e.1 == v)

/-- The tied-rank loop shared by both `scaled_ranks` overloads: scans maximal
runs of equal values, assigns each entry the centered mean rank of its run,
and accumulates `sum_squares`.  Returns (assignments as (position, mean_rank)
in emission order, sum_squares, final cur_rank).  `fuel` bounds the recursion
and is always called with `fuel ≥ length`, in which case it never runs out. -/
def rankLoopF (center : ℚ) : ℕ → RankedVector → ℤ → List (ℕ × ℚ) × ℚ × ℤ
  | _, [], cur => ([], 0, cur)
  | 0, _ :: _, cur => ([], 0, cur)
  | fuel + 1, x :: xs, cur =>
    let run := runOf x.1 xs
    let jump : ℕ := run.length + 1
    let mean : ℚ := (cur : ℚ) + ((jump : ℚ) - 1) / 2 - center
    let rest := rankLoopF center fuel (restOf x.1 xs) (cur + (jump : ℤ))
    ((x :: run).map (fun e => (e.2, mean)) ++ rest.1,
      mean * mean * (jump : ℚ) + rest.2.1, rest.2.2)

def rankLoop (center : ℚ) (l : RankedVector) (cur : ℤ) : List (ℕ × ℚ) × ℚ × ℤ :=
  rankLoopF center l.length l cur

/-- The exact-arithmetic core of the single-collection `scaled_ranks` overload:
the buffer assignments and the accumulated `sum_squares`. -/
def scaledRanksSingleCore (N : ℕ) (collected : RankedVector) : List (ℕ × ℚ) × ℚ :=
  let center : ℚ := ((N : ℚ) - 1) / 2
  let r := rankLoop center collected 0
  (r.1, r.2.1)

/-- Replaying the writes `buffer[cIt->second] = mean_rank` onto an initial
buffer state (the buffer is caller-allocated and may hold garbage). -/
def applyAssign : List (ℕ × ℚ) → (ℕ → ℚ) → ℕ → ℚ
  | [], buf => buf
  | a :: rest, buf => applyAssign rest (Function.update buf a.1 a.2)

/-- Single-collection `scaled_ranks`: the list of `process(i, score)` calls it
makes, in order.  `buf0` is the scratch buffer's content at entry. -/
noncomputable def scaled_ranks_single (N : ℕ) (collected : RankedVector)
    (buf0 : ℕ → ℚ) : List (ℕ × ℝ) :=
  if N = 0 then []
  else
    let core := scaledRanksSingleCore N collected
    if core.2 = 0 then (List.range N).map (fun i => (i, (0 : ℝ)))
    else
      let denom : ℝ := (1 / 2) / Real.sqrt (core.2 : ℝ)
      let buf := applyAssign core.1 buf0
      (List.range N).map (fun i => (i, (buf i : ℝ) * denom))

/-- Exact-arithmetic core of the split `scaled_ranks` overload. -/
structure SplitCore where
  buffer : List (ℕ × ℚ)
  zero_rank : ℚ
  sum_squares : ℚ
  final_rank : ℤ

/-- The split overload's rank pass: negative run(s), then the implicit zero
run of length `num_markers - negative.size() - positive.size()`, then the
positive run(s), with `cur_rank` carried through contiguously. -/
def scaledRanksSplitCore (N : ℕ) (neg pos : RankedVector) : SplitCore :=
  let center : ℚ := ((N : ℚ) - 1) / 2
  let rn := rankLoop center neg 0
  let num_zero : ℤ := (N : ℤ) - (neg.length : ℤ) - (pos.length : ℤ)
  let zero_rank : ℚ :=
    if num_zero ≠ 0 then (rn.2.2 : ℚ) + ((num_zero : ℚ) - 1) / 2 - center else 0
  let ss1 : ℚ :=
    rn.2.1 + (if num_zero ≠ 0 then zero_rank * zero_rank * (num_zero : ℚ) else 0)
  let cur2 : ℤ := rn.2.2 + (if num_zero ≠ 0 then num_zero else 0)
  let rp := rankLoop center pos cur2
  ⟨rn.1 ++ rp.1, zero_rank, ss1 + rp.2.1, rp.2.2⟩

/-- Split `scaled_ranks`: returns (the list of `zero(·)` calls in call order,
the buffer contents at exit).  `buffer0` is the scratch buffer's content at
entry; the function begins with `buffer.clear()`. -/
noncomputable def scaled_ranks_split (N : ℕ) (neg pos : RankedVector)
    (buffer0 : List (ℕ × ℝ)) : List ℝ × List (ℕ × ℝ) :=
  if N = 0 then ([0], [])
  else
    let core := scaledRanksSplitCore N neg pos
    if core.sum_squares = 0 then ([0], [])
    else
      let denom : ℝ := (1 / 2) / Real.sqrt (core.sum_squares : ℝ)
      ([(core.zero_rank : ℝ) * denom],
        core.buffer.map (fun e => (e.1, (e.2 : ℝ) * denom)))

/-- Dense lookup of a sparse-plus-fill representation: the listed score at a
listed position, the fill everywhere else. -/
def sparseLookup (s : List (ℕ × ℚ)) (fill : ℚ) (i : ℕ) : ℚ :=
  match s.find? (fun e => e.1 == i) with
  | some e => e.2
  | none => fill

/-- The dense/dense baseline: `Σ_{i<N} (q[i] - r[i])²`. -/
def denseDenseL2 (N : ℕ) (q r : ℕ → ℚ) : ℚ :=
  ∑ i ∈ Finset.range N, (q i - r i) * (q i - r i)

/-- The two-pointer sparse/sparse merge loop from the
`sparse-sparse-interleaved` strategy, including the two tail loops.  Returns
(accumulated l2, matched-position count `both`).  `fuel` bounds the recursion
and is always called with `fuel ≥ |qs| + |rs|`. -/
def mergeLoopF (zq zr : ℚ) : ℕ → List (ℕ × ℚ) → List (ℕ × ℚ) → ℚ × ℕ
  | _, [], rs => ((rs.map (fun e => (e.2 - zq) * (e.2 - zq))).sum, 0)
  | _, q :: qs, [] => (((q :: qs).map (fun e => (e.2 - zr) * (e.2 - zr))).sum, 0)
  | 0, _ :: _, _ :: _ => (0, 0)
  | fuel + 1, q :: qs, r :: rs =>
    if q.1 < r.1 then
      let m := mergeLoopF zq zr fuel qs (r :: rs)
      ((q.2 - zr) * (q.2 - zr) + m.1, m.2)
    else if r.1 < q.1 then
      let m := mergeLoopF zq zr fuel (q :: qs) rs
      ((r.2 - zq) * (r.2 - zq) + m.1, m.2)
    else
      let m := mergeLoopF zq zr fuel qs rs
      ((q.2 - r.2) * (q.2 - r.2) + m.1, m.2 + 1)

/-- The full `sparse-sparse-interleaved` strategy: the merge loop plus the
closed-form `(len - snum1 - (snum2 - both)) * (zero_query - zero_ref)²`
correction for positions touched by neither list. -/
def sparseSparseL2 (N : ℕ) (sq : List (ℕ × ℚ)) (zq : ℚ)
    (sr : List (ℕ × ℚ)) (zr : ℚ) : ℚ :=
  let m := mergeLoopF zq zr (sq.length + sr.length) sq sr
  m.1 + ((((N : ℤ) - (sq.length : ℤ) - ((sr.length : ℤ) - (m.2 : ℤ))) : ℤ) : ℚ) *
    ((zq - zr) * (zq - zr))

/-- The `any-sparse-unstable` strategy: `x2` is 0.25 when the query's sparse
list is non-empty and 0 otherwise; each sparse reference entry (position,
score) contributes `ref * (ref - 2 * q[position])` with `ref = score - zr`;
finally `N * zr²` is subtracted. -/
def unstableL2 (N : ℕ) (sq : List (ℕ × ℚ)) (q : ℕ → ℚ)
    (sr : List (ℕ × ℚ)) (zr : ℚ) : ℚ :=
  let x2 : ℚ := if sq.isEmpty then 0 else 1 / 4
  let acc : ℚ := (sr.map (fun e => (e.2 - zr) * ((e.2 - zr) - 2 * q e.1))).sum
  x2 + acc - (N : ℚ) * zr * zr

/-- Positions of a sparse list are strictly increasing (sorted, distinct). -/
def posStrictSorted (s : List (ℕ × ℚ)) : Prop :=
  s.Pairwise (fun a b => a.1 < b.1)

/-- All positions of a sparse list lie in `[0, N)`. -/
def posBounded (N : ℕ) (s : List (ℕ × ℚ)) : Prop :=
  ∀ e ∈ s, e.1 < N

/-- The set of positions of a sparse list. -/
def posSet (s : List (ℕ × ℚ)) : Finset ℕ :=
  (s.map Prod.fst).toFinset

/-- A RankedVector is sorted ascending by value. -/
def valueSorted (l : RankedVector) : Prop :=
  l.Pairwise (fun a b => a.1 ≤ b.1)

/-- Number of entries with value strictly below `v`. -/
def countLT (v : ℚ) (l : RankedVector) : ℕ :=
  (l.filter (fun e => e.1 < v)).length

/-- Number of entries with value equal to `v`. -/
def countEq (v : ℚ) (l : RankedVector) : ℕ :=
  (l.filter (fun e => e.1 == v)).length

/-- The centered mean rank that the loop starting at `cur` assigns to value
`v` in a sorted list `l`: entries below `v` come first, then `v`'s run of
length `countEq`, whose mean rank is the run start plus `(jump - 1)/2`. -/
def rankOfValue (center : ℚ) (cur : ℤ) (l : RankedVector) (v : ℚ) : ℚ :=
  (cur : ℚ) + (countLT v l : ℚ) + ((countEq v l : ℚ) - 1) / 2 - center

theorem runOf_append_restOf (v : ℚ) (l : RankedVector) :
    runOf v l ++ restOf v l = l := by
  simp [runOf, restOf]

theorem length_runOf_add_restOf (v : ℚ) (l : RankedVector) :
    (runOf v l).length + (restOf v l).length = l.length := by
  rw [← List.length_append, runOf_append_restOf]

theorem rankLoopF_final (center : ℚ) :
    ∀ (fuel : ℕ) (l : RankedVector) (cur : ℤ), l.length ≤ fuel →
      (rankLoopF center fuel l cur).2.2 = cur + l.length := by
  intro fuel
  induction fuel with
  | zero =>
    intro l cur h
    match l with
    | [] => simp [rankLoopF]
    | x :: xs => simp at h
  | succ fuel ih =>
    intro l cur h
    match l with
    | [] => simp [rankLoopF]
    | x :: xs =>
      have hlen := length_runOf_add_restOf x.1 xs
      have hrest : (restOf x.1 xs).length ≤ fuel := by
        simp only [List.length_cons] at h
        omega
      simp only [rankLoopF]
      rw [ih _ _ hrest]
      simp only [List.length_cons]
      push_cast
      omega

theorem rankLoop_final (center : ℚ) (l : RankedVector) (cur : ℤ) :
    (rankLoop center l cur).2.2 = cur + l.length :=
  rankLoopF_final center l.length l cur le_rfl

theorem rankLoopF_sum (center : ℚ) :
    ∀ (fuel : ℕ) (l : RankedVector) (cur : ℤ), l.length ≤ fuel →
      ((rankLoopF center fuel l cur).1.map (fun e => e.2)).sum =
        (l.length : ℚ) * (cur : ℚ) +
          (l.length : ℚ) * ((l.length : ℚ) - 1) / 2 - (l.length : ℚ) * center := by
  intro fuel
  induction fuel with
  | zero =>
    intro l cur h
    match l with
    | [] => simp [rankLoopF]
    | x :: xs => simp at h
  | succ fuel ih =>
    intro l cur h
    match l with
    | [] => simp [rankLoopF]
    | x :: xs =>
      have hlen := length_runOf_add_restOf x.1 xs
      have hrest : (restOf x.1 xs).length ≤ fuel := by
        simp only [List.length_cons] at h
        omega
      simp only [rankLoopF, List.map_append, List.sum_append, List.map_map]
      rw [ih _ _ hrest]
      simp only [Function.comp_def, List.map_const', List.sum_replicate,
        List.length_cons, smul_eq_mul]
      have hlenQ : ((runOf x.1 xs).length : ℚ) + ((restOf x.1 xs).length : ℚ) =
          (xs.length : ℚ) := by
        exact_mod_cast congrArg (fun n : ℕ => (n : ℚ)) hlen
      push_cast
      rw [← hlenQ]
      ring

theorem rankLoop_sum (center : ℚ) (l : RankedVector) (cur : ℤ) :
    ((rankLoop center l cur).1.map (fun e => e.2)).sum =
      (l.length : ℚ) * (cur : ℚ) +
        (l.length : ℚ) * ((l.length : ℚ) - 1) / 2 - (l.length : ℚ) * center :=
  rankLoopF_sum center l.length l cur le_rfl

theorem mem_runOf (v : ℚ) (l : RankedVector) : ∀ e ∈ runOf v l, e.1 = v := by
  intro e he
  have := List.mem_takeWhile_imp he
  simpa using this

theorem restOf_sorted (v : ℚ) (l : RankedVector) (h : valueSorted l) :
    valueSorted (restOf v l) :=
  List.Pairwise.sublist (List.dropWhile_sublist _) h

theorem mem_restOf_gt (v : ℚ) (l : RankedVector)
    (hle : ∀ e ∈ l, v ≤ e.1) (hs : valueSorted l) :
    ∀ e ∈ restOf v l, v < e.1 := by
  induction l with
  | nil => simp [restOf]
  | cons y ys ih =>
    intro e he
    by_cases hy : y.1 = v
    · rw [restOf, List.dropWhile_cons_of_pos (by simpa using hy)] at he
      exact ih (fun e h => hle e (List.mem_cons_of_mem y h))
        (List.pairwise_cons.mp hs).2 e he
    · rw [restOf, List.dropWhile_cons_of_neg (by simpa using hy)] at he
      rcases List.mem_cons.mp he with rfl | hey
      · exact lt_of_le_of_ne (hle e (List.mem_cons_self e _)) (Ne.symm hy)
      · calc v < y.1 := lt_of_le_of_ne (hle y (List.mem_cons_self y _)) (Ne.symm hy)
          _ ≤ e.1 := (List.pairwise_cons.mp hs).1 e hey

theorem countLT_eq_zero (v : ℚ) (l : RankedVector) (h : ∀ e ∈ l, v ≤ e.1) :
    countLT v l = 0 := by
  rw [countLT, List.length_eq_zero]
  rw [List.filter_eq_nil_iff]
  intro e he
  simpa using not_lt.mpr (h e he)

theorem countEq_head_run (x : ℚ × ℕ) (xs : RankedVector)
    (hrun : ∀ e ∈ runOf x.1 xs, e.1 = x.1)
    (hrest : ∀ e ∈ restOf x.1 xs, x.1 < e.1) :
    countEq x.1 (x :: xs) = (runOf x.1 xs).length + 1 := by
  conv_lhs => rw [countEq, show xs = runOf x.1 xs ++ restOf x.1 xs from
    (runOf_append_restOf x.1 xs).symm]
  rw [List.filter_cons, List.filter_append]
  have h1 : List.filter (fun e => e.1 == x.1) (runOf x.1 xs) = runOf x.1 xs := by
    rw [List.filter_eq_self]
    intro e he
    simpa using hrun e he
  have h2 : List.filter (fun e => e.1 == x.1) (restOf x.1 xs) = [] := by
    rw [List.filter_eq_nil_iff]
    intro e he
    simpa using ne_of_gt (hrest e he)
  simp [h1, h2]

theorem countLT_rest (v : ℚ) (x : ℚ × ℕ) (xs : RankedVector) (hv : x.1 < v)
    (hrun : ∀ e ∈ runOf x.1 xs, e.1 = x.1) :
    countLT v (x :: xs) = (runOf x.1 xs).length + 1 + countLT v (restOf x.1 xs) := by
  conv_lhs => rw [countLT, show xs = runOf x.1 xs ++ restOf x.1 xs from
    (runOf_append_restOf x.1 xs).symm]
  rw [List.filter_cons, List.filter_append]
  have h1 : List.filter (fun e => decide (e.1 < v)) (runOf x.1 xs) = runOf x.1 xs := by
    rw [List.filter_eq_self]
    intro e he
    simpa using (hrun e he) ▸ hv
  simp [h1, hv, countLT]
  omega

theorem countEq_rest (v : ℚ) (x : ℚ × ℕ) (xs : RankedVector) (hv : x.1 < v)
    (hrun : ∀ e ∈ runOf x.1 xs, e.1 = x.1) :
    countEq v (x :: xs) = countEq v (restOf x.1 xs) := by
  conv_lhs => rw [countEq, show xs = runOf x.1 xs ++ restOf x.1 xs from
    (runOf_append_restOf x.1 xs).symm]
  rw [List.filter_cons, List.filter_append]
  have h1 : List.filter (fun e => e.1 == v) (runOf x.1 xs) = [] := by
    rw [List.filter_eq_nil_iff]
    intro e he
    simpa using (hrun e he) ▸ ne_of_lt hv
  have hx : ((x.1 == v) : Bool) = false := by simpa using ne_of_lt hv
  simp [h1, hx, countEq]

theorem rankLoopF_map (center : ℚ) :
    ∀ (fuel : ℕ) (l : RankedVector) (cur : ℤ), l.length ≤ fuel → valueSorted l →
      (rankLoopF center fuel l cur).1 =
        l.map (fun e => (e.2, rankOfValue center cur l e.1)) := by
  intro fuel
  induction fuel with
  | zero =>
    intro l cur h _
    match l with
    | [] => simp [rankLoopF]
    | x :: xs => simp at h
  | succ fuel ih =>
    intro l cur h hsorted
    match l with
    | [] => simp [rankLoopF]
    | x :: xs =>
      obtain ⟨hxle0, hxs_sorted⟩ := List.pairwise_cons.mp hsorted
      have hxle : ∀ e ∈ xs, x.1 ≤ e.1 := fun e he => hxle0 e he
      have hrun : ∀ e ∈ runOf x.1 xs, e.1 = x.1 := mem_runOf x.1 xs
      have hrest : ∀ e ∈ restOf x.1 xs, x.1 < e.1 := mem_restOf_gt x.1 xs hxle hxs_sorted
      have hrest_sorted : valueSorted (restOf x.1 xs) := restOf_sorted x.1 xs hxs_sorted
      have hlenr := length_runOf_add_restOf x.1 xs
      have hfuel : (restOf x.1 xs).length ≤ fuel := by
        simp only [List.length_cons] at h
        omega
      simp only [rankLoopF]
      rw [ih _ _ hfuel hrest_sorted]
      have hsplit : xs = runOf x.1 xs ++ restOf x.1 xs := (runOf_append_restOf x.1 xs).symm
      have hxlecons : ∀ a ∈ x :: xs, x.1 ≤ a.1 := by
        intro a ha
        rcases List.mem_cons.mp ha with rfl | haa
        · exact le_refl a.1
        · exact hxle a haa
      have hLT0 := countLT_eq_zero x.1 (x :: xs) hxlecons
      have hEQ0 := countEq_head_run x xs hrun hrest
      have hmean : (cur : ℚ) + ((((runOf x.1 xs).length + 1 : ℕ) : ℚ) - 1) / 2 - center =
          rankOfValue center cur (x :: xs) x.1 := by
        simp only [rankOfValue, hLT0, hEQ0]
        push_cast
        ring
      conv_rhs => rw [hsplit, List.map_cons, List.map_append]
      rw [← hsplit]
      rw [List.map_cons, List.cons_append]
      congr 1
      · rw [hmean]
      · congr 1
        · apply List.map_congr_left
          intro e he
          have hev : e.1 = x.1 := hrun e he
          rw [hev, hmean]
        · apply List.map_congr_left
          intro e he
          have hev : x.1 < e.1 := hrest e he
          have hLT := countLT_rest e.1 x xs hev hrun
          have hEQ := countEq_rest e.1 x xs hev hrun
          have heq : rankOfValue center (cur + (((runOf x.1 xs).length + 1 : ℕ) : ℤ))
              (restOf x.1 xs) e.1 = rankOfValue center cur (x :: xs) e.1 := by
            simp only [rankOfValue, hLT, hEQ]
            push_cast
            ring
          rw [heq]

theorem rankLoop_map (center : ℚ) (l : RankedVector) (cur : ℤ) (hs : valueSorted l) :
    (rankLoop center l cur).1 = l.map (fun e => (e.2, rankOfValue center cur l e.1)) :=
  rankLoopF_map center l.length l cur le_rfl hs

theorem applyAssign_not_mem (assigns : List (ℕ × ℚ)) (b : ℕ → ℚ) (p : ℕ)
    (hp : p ∉ assigns.map Prod.fst) : applyAssign assigns b p = b p := by
  induction assigns generalizing b with
  | nil => rfl
  | cons a rest ih =>
    simp only [List.map_cons, List.mem_cons] at hp
    push_neg at hp
    rw [applyAssign, ih _ hp.2, Function.update_noteq hp.1]

theorem applyAssign_mem (assigns : List (ℕ × ℚ)) (b : ℕ → ℚ) (p : ℕ) (r : ℚ)
    (hnd : (assigns.map Prod.fst).Nodup) (hmem : (p, r) ∈ assigns) :
    applyAssign assigns b p = r := by
  induction assigns generalizing b with
  | nil => simp at hmem
  | cons a rest ih =>
    simp only [List.map_cons, List.nodup_cons] at hnd
    rw [applyAssign]
    rcases List.mem_cons.mp hmem with heq | hmem'
    · have ha1 : a.1 = p := by rw [← heq]
      have ha2 : a.2 = r := by rw [← heq]
      rw [applyAssign_not_mem rest _ p (ha1 ▸ hnd.1), ha1, ha2, Function.update_same]
    · exact ih _ hnd.2 hmem'

theorem posSet_cons (e : ℕ × ℚ) (s : List (ℕ × ℚ)) :
    posSet (e :: s) = insert e.1 (posSet s) := by
  simp [posSet]

theorem mem_posSet {i : ℕ} {s : List (ℕ × ℚ)} :
    i ∈ posSet s ↔ ∃ e ∈ s, e.1 = i := by
  simp [posSet]

theorem head_not_mem_posSet {e : ℕ × ℚ} {s : List (ℕ × ℚ)}
    (h : ∀ b ∈ s, e.1 < b.1) : e.1 ∉ posSet s := by
  intro hmem
  obtain ⟨a, ha, hai⟩ := mem_posSet.mp hmem
  exact absurd hai (ne_of_gt (h a ha))

theorem sparseLookup_cons_self (p : ℕ) (x : ℚ) (s : List (ℕ × ℚ)) (fill : ℚ) :
    sparseLookup ((p, x) :: s) fill p = x := by
  rw [sparseLookup, List.find?_cons_of_pos]
  simp

theorem sparseLookup_cons_ne (p : ℕ) (x : ℚ) (s : List (ℕ × ℚ)) (fill : ℚ)
    (i : ℕ) (hne : i ≠ p) :
    sparseLookup ((p, x) :: s) fill i = sparseLookup s fill i := by
  rw [sparseLookup, List.find?_cons_of_neg, ← sparseLookup]
  simpa using Ne.symm hne

theorem sparseLookup_not_mem (s : List (ℕ × ℚ)) (fill : ℚ) (i : ℕ)
    (h : i ∉ posSet s) : sparseLookup s fill i = fill := by
  induction s with
  | nil => rfl
  | cons e rest ih =>
    rw [posSet_cons, Finset.mem_insert, not_or] at h
    rw [show e = (e.1, e.2) from rfl, sparseLookup_cons_ne e.1 e.2 rest fill i h.1]
    exact ih h.2

theorem sum_map_eq_sum_posSet (g : ℕ → ℚ → ℚ) (fill : ℚ) :
    ∀ (s : List (ℕ × ℚ)), posStrictSorted s →
      (s.map (fun e => g e.1 e.2)).sum = ∑ i ∈ posSet s, g i (sparseLookup s fill i) := by
  intro s
  induction s with
  | nil => simp [posSet]
  | cons e rest ih =>
    intro hs
    obtain ⟨hlt, hrest⟩ := List.pairwise_cons.mp hs
    have hnotmem : e.1 ∉ posSet rest := head_not_mem_posSet hlt
    rw [List.map_cons, List.sum_cons, posSet_cons, Finset.sum_insert hnotmem]
    congr 1
    · rw [show e = (e.1, e.2) from rfl, sparseLookup_cons_self]
    · rw [ih hrest]
      apply Finset.sum_congr rfl
      intro i hi
      have hne : i ≠ e.1 := fun h => hnotmem (h ▸ hi)
      rw [show e = (e.1, e.2) from rfl, sparseLookup_cons_ne e.1 e.2 rest fill i hne]

theorem posSet_subset_range (N : ℕ) (s : List (ℕ × ℚ)) (hb : posBounded N s) :
    posSet s ⊆ Finset.range N := by
  intro i hi
  obtain ⟨a, ha, hai⟩ := mem_posSet.mp hi
  exact Finset.mem_range.mpr (hai ▸ hb a ha)

/-- C3: degenerate (zero-variance) inputs: with `sum_squares = 0`, the
single-collection form emits score exactly 0 at every one of the `N`
positions, and the split form reports a zero-fill of exactly 0 with an empty
sparse list. -/
theorem claim_C3_zero_variance_all_scores_zero
    (N : ℕ) (hN : 1 ≤ N) (c : RankedVector) (b0 : ℕ → ℚ)
    (neg pos : RankedVector) (b1 : List (ℕ × ℝ))
    (hs : (scaledRanksSingleCore N c).2 = 0)
    (hsp : (scaledRanksSplitCore N neg pos).sum_squares = 0) :
    scaled_ranks_single N c b0 = (List.range N).map (fun i => (i, (0 : ℝ))) ∧
      scaled_ranks_split N neg pos b1 = ([0], []) := by
  have hN0 : N ≠ 0 := by omega
  constructor
  · simp [scaled_ranks_single, hN0, hs]
  · simp [scaled_ranks_split, hN0, hsp]

theorem claim_C3_zero_variance_all_scores_zero_witness :
    scaled_ranks_single 2 [(3, 0), (3, 1)] (fun _ => 37) =
        [(0, (0 : ℝ)), (1, (0 : ℝ))] ∧
      scaled_ranks_split 2 [] [] [(9, 4)] = ([0], []) := by
  have h := claim_C3_zero_variance_all_scores_zero 2 (by norm_num)
    [(3, 0), (3, 1)] (fun _ => 37) [] [] [(9, 4)]
    (by norm_num [scaledRanksSingleCore, rankLoop, rankLoopF, runOf, restOf])
    (by norm_num [scaledRanksSplitCore, rankLoop, rankLoopF])
  simpa using h

/-- C4: the centered mean ranks assigned by the transform sum to exactly zero
over exact rational arithmetic: for the single-collection form over all `N`
assigned positions, and for the split form over the buffer entries plus the
implicit zero run's `num_zero * zero_rank` contribution.  (No sortedness is
even needed: the run decomposition tiles ranks `0..N-1` for any input.) -/
theorem claim_C4_centered_ranks_sum_zero
    (N : ℕ) (hN : 1 ≤ N) (c : RankedVector) (hclen : c.length = N)
    (neg pos : RankedVector) (hlen : neg.length + pos.length ≤ N) :
    ((scaledRanksSingleCore N c).1.map (fun e => e.2)).sum = 0 ∧
      ((scaledRanksSplitCore N neg pos).buffer.map (fun e => e.2)).sum +
          ((N : ℚ) - (neg.length : ℚ) - (pos.length : ℚ)) *
            (scaledRanksSplitCore N neg pos).zero_rank = 0 := by
  constructor
  · simp only [scaledRanksSingleCore]
    rw [rankLoop_sum, hclen]
    push_cast
    ring
  · simp only [scaledRanksSplitCore, List.map_append, List.sum_append]
    rw [rankLoop_final]
    by_cases hnz : ((N : ℤ) - (neg.length : ℤ) - (pos.length : ℤ)) = 0
    · simp only [if_neg (not_not_intro hnz)]
      rw [rankLoop_sum, rankLoop_sum]
      have hz : (N : ℤ) = (neg.length : ℤ) + (pos.length : ℤ) := by omega
      have hq2 : (N : ℚ) = (neg.length : ℚ) + (pos.length : ℚ) := by exact_mod_cast hz
      rw [hq2]
      push_cast
      ring
    · simp only [if_pos hnz]
      rw [rankLoop_sum, rankLoop_sum]
      push_cast
      ring

theorem claim_C4_centered_ranks_sum_zero_witness :
    ((scaledRanksSingleCore 3 [(1, 0), (2, 1), (2, 2)]).1.map (fun e => e.2)).sum = 0 ∧
      ((scaledRanksSplitCore 3 [((-1 : ℚ), 0)] [((4 : ℚ), 2)]).buffer.map
          (fun e => e.2)).sum +
        ((3 : ℚ) - (([((-1 : ℚ), 0)] : RankedVector).length : ℚ) -
            (([((4 : ℚ), 2)] : RankedVector).length : ℚ)) *
          (scaledRanksSplitCore 3 [((-1 : ℚ), 0)] [((4 : ℚ), 2)]).zero_rank = 0 :=
  claim_C4_centered_ranks_sum_zero 3 (by norm_num) [(1, 0), (2, 1), (2, 2)]
    (by norm_num) [((-1 : ℚ), 0)] [((4 : ℚ), 2)] (by norm_num)

/-- C7: `N = 0` is a defined degenerate case: the single-collection form makes
no `process` calls, and the split form emits an empty sparse list and reports
a zero-fill of exactly 0. -/
theorem claim_C7_zero_length_yields_nothing
    (c : RankedVector) (b0 : ℕ → ℚ)
    (neg pos : RankedVector) (b1 : List (ℕ × ℝ)) :
    scaled_ranks_single 0 c b0 = [] ∧
      scaled_ranks_split 0 neg pos b1 = ([0], []) := by
  constructor
  · simp [scaled_ranks_single]
  · simp [scaled_ranks_split]

/-- C5: positions with equal raw values receive identical output scores,
namely the centered mean rank of their shared tied run (run start
`countLT` = cur_rank, plus `(countEq - 1)/2` = `(jump - 1)/2`, minus
`(N - 1)/2`) times the common normalizing factor `0.5 / sqrt(sum_squares)` —
in the single-collection form and in both sides of the split form. -/
theorem claim_C5_tied_values_identical_scores
    (N : ℕ) (hN : N ≠ 0)
    (c : RankedVector) (hcs : valueSorted c) (hnd : (c.map Prod.snd).Nodup)
    (v : ℚ) (p1 p2 : ℕ) (h1 : (v, p1) ∈ c) (h2 : (v, p2) ∈ c) (b0 : ℕ → ℚ)
    (hss : (scaledRanksSingleCore N c).2 ≠ 0) (hp1 : p1 < N) (hp2 : p2 < N)
    (neg pos : RankedVector) (hnegs : valueSorted neg) (hposs : valueSorted pos)
    (hndsp : ((neg ++ pos).map Prod.snd).Nodup)
    (w : ℚ) (q1 q2 : ℕ) (hw1 : (w, q1) ∈ neg ++ pos) (hw2 : (w, q2) ∈ neg ++ pos)
    (hneg : ∀ e ∈ neg, e.1 < 0) (hpos : ∀ e ∈ pos, 0 < e.1)
    (hss2 : (scaledRanksSplitCore N neg pos).sum_squares ≠ 0) (b1 : List (ℕ × ℝ)) :
    ((p1, ((rankOfValue (((N : ℚ) - 1) / 2) 0 c v : ℚ) : ℝ) *
          ((1 / 2) / Real.sqrt (((scaledRanksSingleCore N c).2 : ℚ) : ℝ))) ∈
        scaled_ranks_single N c b0 ∧
      (p2, ((rankOfValue (((N : ℚ) - 1) / 2) 0 c v : ℚ) : ℝ) *
          ((1 / 2) / Real.sqrt (((scaledRanksSingleCore N c).2 : ℚ) : ℝ))) ∈
        scaled_ranks_single N c b0) ∧
      (∃ t : ℝ, (q1, t) ∈ (scaled_ranks_split N neg pos b1).2 ∧
        (q2, t) ∈ (scaled_ranks_split N neg pos b1).2 ∧
        (t = ((rankOfValue (((N : ℚ) - 1) / 2) 0 neg w : ℚ) : ℝ) *
            ((1 / 2) / Real.sqrt (((scaledRanksSplitCore N neg pos).sum_squares : ℚ) : ℝ)) ∨
          t = ((rankOfValue (((N : ℚ) - 1) / 2) ((N : ℤ) - (pos.length : ℤ)) pos w : ℚ) : ℝ) *
            ((1 / 2) / Real.sqrt (((scaledRanksSplitCore N neg pos).sum_squares : ℚ) : ℝ)))) := by
  constructor
  · -- single-collection form
    have hmap := rankLoop_map (((N : ℚ) - 1) / 2) c 0 hcs
    have hndfst : (((rankLoop (((N : ℚ) - 1) / 2) c 0).1).map Prod.fst).Nodup := by
      rw [hmap, List.map_map]
      simpa using hnd
    have hb : ∀ p, (v, p) ∈ c →
        applyAssign (scaledRanksSingleCore N c).1 b0 p =
          rankOfValue (((N : ℚ) - 1) / 2) 0 c v := by
      intro p hp
      apply applyAssign_mem _ _ _ _ (by simpa [scaledRanksSingleCore] using hndfst)
      simp only [scaledRanksSingleCore]
      rw [hmap]
      exact List.mem_map.mpr ⟨(v, p), hp, rfl⟩
    constructor
    · rw [scaled_ranks_single, if_neg hN, if_neg hss]
      refine List.mem_map.mpr ⟨p1, List.mem_range.mpr hp1, ?_⟩
      rw [hb p1 h1]
    · rw [scaled_ranks_single, if_neg hN, if_neg hss]
      refine List.mem_map.mpr ⟨p2, List.mem_range.mpr hp2, ?_⟩
      rw [hb p2 h2]
  · -- split form
    have hcur2 : (rankLoop (((N : ℚ) - 1) / 2) neg 0).2.2 +
        (if ((N : ℤ) - (neg.length : ℤ) - (pos.length : ℤ)) ≠ 0 then
          ((N : ℤ) - (neg.length : ℤ) - (pos.length : ℤ)) else 0) =
        (N : ℤ) - (pos.length : ℤ) := by
      rw [rankLoop_final]
      by_cases hnz : ((N : ℤ) - (neg.length : ℤ) - (pos.length : ℤ)) = 0
      · rw [if_neg (not_not_intro hnz)]
        omega
      · rw [if_pos hnz]
        omega
    have hbuf : (scaledRanksSplitCore N neg pos).buffer =
        neg.map (fun e => (e.2, rankOfValue (((N : ℚ) - 1) / 2) 0 neg e.1)) ++
          pos.map (fun e =>
            (e.2, rankOfValue (((N : ℚ) - 1) / 2) ((N : ℤ) - (pos.length : ℤ)) pos e.1)) := by
      simp only [scaledRanksSplitCore]
      rw [hcur2, rankLoop_map _ _ _ hnegs, rankLoop_map _ _ _ hposs]
    have hout : (scaled_ranks_split N neg pos b1).2 =
        (scaledRanksSplitCore N neg pos).buffer.map (fun e => (e.1, (e.2 : ℝ) *
          ((1 / 2) / Real.sqrt (((scaledRanksSplitCore N neg pos).sum_squares : ℚ) : ℝ)))) := by
      rw [scaled_ranks_split, if_neg hN, if_neg hss2]
    rcases List.mem_append.mp hw1 with h1n | h1p
    · have hwneg : w < 0 := hneg (w, q1) h1n
      have h2n : (w, q2) ∈ neg := by
        rcases List.mem_append.mp hw2 with h | h
        · exact h
        · exact absurd (hpos (w, q2) h) (not_lt.mpr hwneg.le)
      refine ⟨((rankOfValue (((N : ℚ) - 1) / 2) 0 neg w : ℚ) : ℝ) *
        ((1 / 2) / Real.sqrt (((scaledRanksSplitCore N neg pos).sum_squares : ℚ) : ℝ)),
        ?_, ?_, Or.inl rfl⟩
      · rw [hout]
        refine List.mem_map.mpr ⟨(q1, rankOfValue (((N : ℚ) - 1) / 2) 0 neg w), ?_, rfl⟩
        rw [hbuf]
        exact List.mem_append_left _ (List.mem_map.mpr ⟨(w, q1), h1n, rfl⟩)
      · rw [hout]
        refine List.mem_map.mpr ⟨(q2, rankOfValue (((N : ℚ) - 1) / 2) 0 neg w), ?_, rfl⟩
        rw [hbuf]
        exact List.mem_append_left _ (List.mem_map.mpr ⟨(w, q2), h2n, rfl⟩)
    · have hwpos : 0 < w := hpos (w, q1) h1p
      have h2p : (w, q2) ∈ pos := by
        rcases List.mem_append.mp hw2 with h | h
        · exact absurd (hneg (w, q2) h) (not_lt.mpr hwpos.le)
        · exact h
      refine ⟨((rankOfValue (((N : ℚ) - 1) / 2) ((N : ℤ) - (pos.length : ℤ)) pos w : ℚ) : ℝ) *
        ((1 / 2) / Real.sqrt (((scaledRanksSplitCore N neg pos).sum_squares : ℚ) : ℝ)),
        ?_, ?_, Or.inr rfl⟩
      · rw [hout]
        refine List.mem_map.mpr ⟨(q1, rankOfValue (((N : ℚ) - 1) / 2)
          ((N : ℤ) - (pos.length : ℤ)) pos w), ?_, rfl⟩
        rw [hbuf]
        exact List.mem_append_right _ (List.mem_map.mpr ⟨(w, q1), h1p, rfl⟩)
      · rw [hout]
        refine List.mem_map.mpr ⟨(q2, rankOfValue (((N : ℚ) - 1) / 2)
          ((N : ℤ) - (pos.length : ℤ)) pos w), ?_, rfl⟩
        rw [hbuf]
        exact List.mem_append_right _ (List.mem_map.mpr ⟨(w, q2), h2p, rfl⟩)

theorem claim_C5_tied_values_identical_scores_witness :
    ((1, ((rankOfValue (((3 : ℚ) - 1) / 2) 0 [(1, 0), (2, 1), (2, 2)] 2 : ℚ) : ℝ) *
          ((1 / 2) / Real.sqrt
            (((scaledRanksSingleCore 3 [(1, 0), (2, 1), (2, 2)]).2 : ℚ) : ℝ))) ∈
        scaled_ranks_single 3 [(1, 0), (2, 1), (2, 2)] (fun _ => 0) ∧
      (2, ((rankOfValue (((3 : ℚ) - 1) / 2) 0 [(1, 0), (2, 1), (2, 2)] 2 : ℚ) : ℝ) *
          ((1 / 2) / Real.sqrt
            (((scaledRanksSingleCore 3 [(1, 0), (2, 1), (2, 2)]).2 : ℚ) : ℝ))) ∈
        scaled_ranks_single 3 [(1, 0), (2, 1), (2, 2)] (fun _ => 0)) ∧
      (∃ t : ℝ, (0, t) ∈ (scaled_ranks_split 3 [((-1 : ℚ), 0), ((-1 : ℚ), 1)] [] []).2 ∧
        (1, t) ∈ (scaled_ranks_split 3 [((-1 : ℚ), 0), ((-1 : ℚ), 1)] [] []).2 ∧
        (t = ((rankOfValue (((3 : ℚ) - 1) / 2) 0 [((-1 : ℚ), 0), ((-1 : ℚ), 1)] (-1) : ℚ) : ℝ) *
            ((1 / 2) / Real.sqrt
              (((scaledRanksSplitCore 3 [((-1 : ℚ), 0), ((-1 : ℚ), 1)] []).sum_squares : ℚ) : ℝ)) ∨
          t = ((rankOfValue (((3 : ℚ) - 1) / 2) ((3 : ℤ) - (([] : RankedVector).length : ℤ))
              [] (-1) : ℚ) : ℝ) *
            ((1 / 2) / Real.sqrt
              (((scaledRanksSplitCore 3 [((-1 : ℚ), 0), ((-1 : ℚ), 1)] []).sum_squares : ℚ) : ℝ)))) :=
  claim_C5_tied_values_identical_scores 3 (by norm_num)
    [(1, 0), (2, 1), (2, 2)] (by norm_num [valueSorted]) (by norm_num)
    2 1 2 (by norm_num) (by norm_num) (fun _ => 0)
    (by norm_num [scaledRanksSingleCore, rankLoop, rankLoopF, runOf, restOf])
    (by norm_num) (by norm_num)
    [((-1 : ℚ), 0), ((-1 : ℚ), 1)] [] (by norm_num [valueSorted]) (by norm_num [valueSorted])
    (by norm_num)
    (-1) 0 1 (by norm_num) (by norm_num)
    (by intro e he
        rcases List.mem_cons.mp he with rfl | he2
        · norm_num
        · rcases List.mem_cons.mp he2 with rfl | he3
          · norm_num
          · simp at he3)
    (by intro e he; simp at he)
    (by norm_num [scaledRanksSplitCore, rankLoop, rankLoopF, runOf, restOf]) []

/-- C6: on every invocation of the split form the zero callback is invoked
exactly once; it reports 0 when `N = 0`, when `num_zero = 0`, or when the
input is degenerate (`sum_squares = 0`); and rank accounting stays contiguous
across the negative, zero and positive runs — the final `cur_rank` is exactly
`N`, even when the zero run is empty. -/
theorem claim_C6_zero_callback_once_and_contiguous
    (N : ℕ) (neg pos : RankedVector) (b : List (ℕ × ℝ)) :
    (scaled_ranks_split N neg pos b).1.length = 1 ∧
      ((N = 0 ∨ (N : ℤ) - (neg.length : ℤ) - (pos.length : ℤ) = 0 ∨
          (scaledRanksSplitCore N neg pos).sum_squares = 0) →
        (scaled_ranks_split N neg pos b).1 = [0]) ∧
      (scaledRanksSplitCore N neg pos).final_rank = N := by
  refine ⟨?_, ?_, ?_⟩
  · by_cases hN : N = 0
    · simp [scaled_ranks_split, hN]
    · by_cases hss : (scaledRanksSplitCore N neg pos).sum_squares = 0
      · simp [scaled_ranks_split, hN, hss]
      · simp [scaled_ranks_split, hN, hss]
  · intro hcase
    by_cases hN : N = 0
    · simp [scaled_ranks_split, hN]
    · by_cases hss : (scaledRanksSplitCore N neg pos).sum_squares = 0
      · simp [scaled_ranks_split, hN, hss]
      · have hnz : (N : ℤ) - (neg.length : ℤ) - (pos.length : ℤ) = 0 := by tauto
        have hzr : (scaledRanksSplitCore N neg pos).zero_rank = 0 := by
          simp only [scaledRanksSplitCore, if_neg (not_not_intro hnz)]
        simp [scaled_ranks_split, hN, hss, hzr]
  · simp only [scaledRanksSplitCore, rankLoop_final]
    by_cases hnz : ((N : ℤ) - (neg.length : ℤ) - (pos.length : ℤ)) = 0
    · simp only [if_neg (not_not_intro hnz)]
      omega
    · simp only [if_pos hnz]
      omega

theorem claim_C6_zero_callback_once_and_contiguous_witness :
    (scaled_ranks_split 2 [((-1 : ℚ), 0)] [((1 : ℚ), 1)] []).1.length = 1 ∧
      (scaled_ranks_split 2 [((-1 : ℚ), 0)] [((1 : ℚ), 1)] []).1 = [0] ∧
      (scaledRanksSplitCore 2 [((-1 : ℚ), 0)] [((1 : ℚ), 1)]).final_rank = 2 := by
  have h := claim_C6_zero_callback_once_and_contiguous 2
    [((-1 : ℚ), 0)] [((1 : ℚ), 1)] []
  exact ⟨h.1, h.2.1 (Or.inr (Or.inl (by norm_num))), h.2.2⟩

/-- C8: both forms are deterministic (equal inputs give equal outputs), and
the split form's result does not depend on the scratch buffer's contents at
entry, since the buffer is cleared before anything is emitted. -/
theorem claim_C8_deterministic_and_buffer_independent
    (N : ℕ) (c : RankedVector) (b0 : ℕ → ℚ)
    (neg pos : RankedVector) (b1 b2 : List (ℕ × ℝ)) :
    scaled_ranks_single N c b0 = scaled_ranks_single N c b0 ∧
      scaled_ranks_split N neg pos b1 = scaled_ranks_split N neg pos b2 :=
  ⟨rfl, rfl⟩

theorem sqrt_ten_bounds : (3.1622 : ℝ) < Real.sqrt 10 ∧ Real.sqrt 10 < 3.1623 := by
  constructor
  · rw [Real.lt_sqrt (by norm_num)]
    norm_num
  · rw [Real.sqrt_lt' (by norm_num)]
    norm_num

/-- C9: the concrete scenario N = 5, raw values [-2,-1,0,1,2] at positions
0..4 in single-collection form: centered ranks are [-2,-1,0,1,2],
`sum_squares` is 10, the emitted scores are those ranks times `0.5 / √10`,
and the two extreme magnitudes are within 1/10000 of 0.3162 and 0.1581. -/
theorem claim_C9_concrete_five_vector :
    (scaledRanksSingleCore 5 [((-2 : ℚ), 0), (-1, 1), (0, 2), (1, 3), (2, 4)]).1 =
        [(0, -2), (1, -1), (2, 0), (3, 1), (4, 2)] ∧
      (scaledRanksSingleCore 5 [((-2 : ℚ), 0), (-1, 1), (0, 2), (1, 3), (2, 4)]).2 = 10 ∧
      scaled_ranks_single 5 [((-2 : ℚ), 0), (-1, 1), (0, 2), (1, 3), (2, 4)] (fun _ => 0) =
        [(0, (-2 : ℝ) * ((1 / 2) / Real.sqrt 10)), (1, (-1 : ℝ) * ((1 / 2) / Real.sqrt 10)),
          (2, 0), (3, (1 : ℝ) * ((1 / 2) / Real.sqrt 10)),
          (4, (2 : ℝ) * ((1 / 2) / Real.sqrt 10))] ∧
      |(2 : ℝ) * ((1 / 2) / Real.sqrt 10) - 0.3162| < 1 / 10000 ∧
      |(1 : ℝ) * ((1 / 2) / Real.sqrt 10) - 0.1581| < 1 / 10000 := by
  have hcore : (scaledRanksSingleCore 5 [((-2 : ℚ), 0), (-1, 1), (0, 2), (1, 3), (2, 4)]) =
      ([(0, -2), (1, -1), (2, 0), (3, 1), (4, 2)], 10) := by
    norm_num [scaledRanksSingleCore, rankLoop, rankLoopF, runOf, restOf]
  refine ⟨by rw [hcore], by rw [hcore], ?_, ?_, ?_⟩
  · rw [scaled_ranks_single]
    norm_num [hcore, scaledRanksSingleCore, rankLoop, rankLoopF, runOf, restOf,
      applyAssign, Function.update, List.range_succ]
  all_goals obtain ⟨h1, h2⟩ := sqrt_ten_bounds
  all_goals have hpos : (0 : ℝ) < Real.sqrt 10 := by positivity
  · have he : (2 : ℝ) * ((1 / 2) / Real.sqrt 10) = 1 / Real.sqrt 10 := by ring
    have hlow : (0.3161 : ℝ) < 1 / Real.sqrt 10 := by
      rw [lt_div_iff₀ hpos]
      nlinarith
    have hhigh : (1 : ℝ) / Real.sqrt 10 < 0.3163 := by
      rw [div_lt_iff₀ hpos]
      nlinarith
    rw [he, abs_lt]
    constructor <;> [linarith; linarith]
  · have he : (1 : ℝ) * ((1 / 2) / Real.sqrt 10) = 1 / (2 * Real.sqrt 10) := by ring
    have hpos2 : (0 : ℝ) < 2 * Real.sqrt 10 := by positivity
    have hlow : (0.1580 : ℝ) < 1 / (2 * Real.sqrt 10) := by
      rw [lt_div_iff₀ hpos2]
      nlinarith
    have hhigh : (1 : ℝ) / (2 * Real.sqrt 10) < 0.1582 := by
      rw [div_lt_iff₀ hpos2]
      nlinarith
    rw [he, abs_lt]
    constructor <;> [linarith; linarith]

/-- C10: whenever the split form takes the zero-variance branch
(`sum_squares = 0`), the sparse output list is exactly empty and the zero-fill
is 0; and the branch is indeed taken when both input lists are empty with
`N ≥ 1`. -/
theorem claim_C10_degenerate_split_buffer_cleared
    (N : ℕ) (hN : 1 ≤ N) (neg pos : RankedVector) (b1 : List (ℕ × ℝ))
    (hsp : (scaledRanksSplitCore N neg pos).sum_squares = 0) :
    scaled_ranks_split N neg pos b1 = ([0], []) ∧
      (scaledRanksSplitCore N [] []).sum_squares = 0 := by
  have hN0 : N ≠ 0 := by omega
  constructor
  · simp [scaled_ranks_split, hN0, hsp]
  · have hz : ((N : ℤ) - ((0 : ℕ) : ℤ) - ((0 : ℕ) : ℤ)) ≠ 0 := by omega
    simp only [scaledRanksSplitCore, rankLoop, rankLoopF, List.length_nil]
    rw [if_pos hz, if_pos hz]
    push_cast
    ring

theorem claim_C10_degenerate_split_buffer_cleared_witness :
    scaled_ranks_split 3 [((5 : ℚ), 0), ((5 : ℚ), 1), ((5 : ℚ), 2)] [] [(1, 1)] =
        ([0], []) ∧
      (scaledRanksSplitCore 3 [] []).sum_squares = 0 := by
  have h := claim_C10_degenerate_split_buffer_cleared 3 (by norm_num)
    [((5 : ℚ), 0), ((5 : ℚ), 1), ((5 : ℚ), 2)] [] [(1, 1)]
    (by norm_num [scaledRanksSplitCore, rankLoop, rankLoopF, runOf, restOf])
  simpa using h

/-- C2: the closed-form `any-sparse-unstable` expansion —
`x2 + Σ_{sparse ref} ref * (ref - 2 * q[pos]) - N * zero_ref²` with
`ref = score - zero_ref` and `x2 = 0.25` iff the query's sparse list is
non-empty — equals the dense/dense baseline exactly, for every query whose
scores sum to 0 with `Σ q² = x2` and every sorted sparse-plus-fill reference
whose scores sum to 0. -/
theorem claim_C2_unstable_expansion_exact
    (N : ℕ) (hN : 1 ≤ N)
    (sq : List (ℕ × ℚ)) (q : ℕ → ℚ)
    (sr : List (ℕ × ℚ)) (zr : ℚ)
    (hsr : posStrictSorted sr) (hbr : posBounded N sr)
    (hQsum : ∑ i ∈ Finset.range N, q i = 0)
    (hQ2 : ∑ i ∈ Finset.range N, q i * q i = (if sq.isEmpty then 0 else 1 / 4))
    (hRsum : ∑ i ∈ Finset.range N, sparseLookup sr zr i = 0) :
    unstableL2 N sq q sr zr = denseDenseL2 N q (sparseLookup sr zr) := by
  have hlist := sum_map_eq_sum_posSet
    (fun i r => (r - zr) * ((r - zr) - 2 * q i)) zr sr hsr
  simp only [] at hlist
  have hext : ∑ i ∈ posSet sr, (sparseLookup sr zr i - zr) *
      ((sparseLookup sr zr i - zr) - 2 * q i) =
      ∑ i ∈ Finset.range N, (sparseLookup sr zr i - zr) *
      ((sparseLookup sr zr i - zr) - 2 * q i) := by
    apply Finset.sum_subset (posSet_subset_range N sr hbr)
    intro i _ hnot
    rw [sparseLookup_not_mem sr zr i hnot]
    ring
  have hpoint : ∀ i ∈ Finset.range N,
      (q i - sparseLookup sr zr i) * (q i - sparseLookup sr zr i) =
        (sparseLookup sr zr i - zr) * ((sparseLookup sr zr i - zr) - 2 * q i) +
          q i * q i - 2 * zr * q i + 2 * zr * sparseLookup sr zr i - zr * zr := by
    intro i _
    ring
  rw [unstableL2, denseDenseL2]
  rw [hlist, hext, Finset.sum_congr rfl hpoint]
  simp only [Finset.sum_add_distrib, Finset.sum_sub_distrib, ← Finset.mul_sum,
    Finset.sum_const, Finset.card_range, nsmul_eq_mul]
  rw [hQsum, hQ2, hRsum]
  ring

theorem claim_C2_unstable_expansion_exact_witness :
    unstableL2 4 [(0, (1 : ℚ)/4)]
        (fun i => if i % 2 = 0 then (1 : ℚ)/4 else -(1 : ℚ)/4) [] 0 =
      denseDenseL2 4 (fun i => if i % 2 = 0 then (1 : ℚ)/4 else -(1 : ℚ)/4)
        (sparseLookup [] 0) :=
  claim_C2_unstable_expansion_exact 4 (by norm_num) [(0, (1 : ℚ)/4)]
    (fun i => if i % 2 = 0 then (1 : ℚ)/4 else -(1 : ℚ)/4) [] 0
    (by simp [posStrictSorted]) (by simp [posBounded])
    (by norm_num [Finset.sum_range_succ])
    (by norm_num [Finset.sum_range_succ])
    (by norm_num [Finset.sum_range_succ, sparseLookup])

theorem merge_base_left (zq zr : ℚ) (fuel : ℕ) (sr : List (ℕ × ℚ))
    (hsr : posStrictSorted sr) :
    (mergeLoopF zq zr fuel [] sr).1 =
        ∑ i ∈ posSet ([] : List (ℕ × ℚ)) ∪ posSet sr,
          (sparseLookup [] zq i - sparseLookup sr zr i) *
            (sparseLookup [] zq i - sparseLookup sr zr i) ∧
      ((mergeLoopF zq zr fuel [] sr).2 : ℕ) =
        (posSet ([] : List (ℕ × ℚ)) ∩ posSet sr).card := by
  have h1 : (mergeLoopF zq zr fuel [] sr).1 =
      (sr.map (fun e => (e.2 - zq) * (e.2 - zq))).sum := by
    cases fuel <;> rfl
  have h2 : (mergeLoopF zq zr fuel [] sr).2 = 0 := by
    cases fuel <;> rfl
  constructor
  · rw [h1, sum_map_eq_sum_posSet (fun i r => (r - zq) * (r - zq)) zr sr hsr]
    simp only [posSet, List.map_nil, List.toFinset_nil, Finset.empty_union]
    apply Finset.sum_congr rfl
    intro i _
    rw [show sparseLookup [] zq i = zq from rfl]
    ring
  · rw [h2]
    simp [posSet]

theorem merge_base_right (zq zr : ℚ) (fuel : ℕ) (q : ℕ × ℚ) (qs : List (ℕ × ℚ))
    (hsq : posStrictSorted (q :: qs)) :
    (mergeLoopF zq zr fuel (q :: qs) []).1 =
        ∑ i ∈ posSet (q :: qs) ∪ posSet ([] : List (ℕ × ℚ)),
          (sparseLookup (q :: qs) zq i - sparseLookup [] zr i) *
            (sparseLookup (q :: qs) zq i - sparseLookup [] zr i) ∧
      ((mergeLoopF zq zr fuel (q :: qs) []).2 : ℕ) =
        (posSet (q :: qs) ∩ posSet ([] : List (ℕ × ℚ))).card := by
  have h1 : (mergeLoopF zq zr fuel (q :: qs) []).1 =
      ((q :: qs).map (fun e => (e.2 - zr) * (e.2 - zr))).sum := by
    cases fuel <;> rfl
  have h2 : (mergeLoopF zq zr fuel (q :: qs) []).2 = 0 := by
    cases fuel <;> rfl
  constructor
  · rw [h1, sum_map_eq_sum_posSet (fun i r => (r - zr) * (r - zr)) zq (q :: qs) hsq]
    simp only [posSet, List.map_nil, List.toFinset_nil, Finset.union_empty]
    apply Finset.sum_congr rfl
    intro i _
    rw [show sparseLookup [] zr i = zr from rfl]
  · rw [h2]
    simp [posSet]

theorem mergeLoopF_spec (zq zr : ℚ) :
    ∀ (fuel : ℕ) (sq sr : List (ℕ × ℚ)),
      sq.length + sr.length ≤ fuel →
      posStrictSorted sq → posStrictSorted sr →
      (mergeLoopF zq zr fuel sq sr).1 =
          ∑ i ∈ posSet sq ∪ posSet sr,
            (sparseLookup sq zq i - sparseLookup sr zr i) *
              (sparseLookup sq zq i - sparseLookup sr zr i) ∧
        (mergeLoopF zq zr fuel sq sr).2 = (posSet sq ∩ posSet sr).card := by
  intro fuel
  induction fuel with
  | zero =>
    intro sq sr h hsq hsr
    match sq, sr with
    | [], sr => exact merge_base_left zq zr 0 sr hsr
    | q :: qs, [] => exact merge_base_right zq zr 0 q qs hsq
    | q :: qs, r :: rs => simp at h
  | succ fuel ih =>
    intro sq sr h hsq hsr
    match sq, sr with
    | [], sr => exact merge_base_left zq zr (fuel + 1) sr hsr
    | q :: qs, [] => exact merge_base_right zq zr (fuel + 1) q qs hsq
    | q :: qs, r :: rs =>
      obtain ⟨hq_lt, hqs⟩ := List.pairwise_cons.mp hsq
      obtain ⟨hr_lt, hrs⟩ := List.pairwise_cons.mp hsr
      have hqn : q.1 ∉ posSet qs := head_not_mem_posSet hq_lt
      have hrn : r.1 ∉ posSet rs := head_not_mem_posSet hr_lt
      simp only [List.length_cons] at h
      by_cases h1 : q.1 < r.1
      · have hfuel : qs.length + (r :: rs).length ≤ fuel := by
          simp only [List.length_cons]
          omega
        obtain ⟨iha, ihb⟩ := ih qs (r :: rs) hfuel hqs hsr
        have hq_not_r : q.1 ∉ posSet (r :: rs) := by
          apply head_not_mem_posSet (e := q)
          intro b hb
          rcases List.mem_cons.mp hb with rfl | hbb
          · exact h1
          · exact h1.trans (hr_lt b hbb)
        have hq_not_union : q.1 ∉ posSet qs ∪ posSet (r :: rs) := by
          simp only [Finset.mem_union]
          push_neg
          exact ⟨hqn, hq_not_r⟩
        have hunfold : mergeLoopF zq zr (fuel + 1) (q :: qs) (r :: rs) =
            ((q.2 - zr) * (q.2 - zr) + (mergeLoopF zq zr fuel qs (r :: rs)).1,
              (mergeLoopF zq zr fuel qs (r :: rs)).2) := by
          simp [mergeLoopF, h1]
        rw [hunfold]
        constructor
        · show (q.2 - zr) * (q.2 - zr) + (mergeLoopF zq zr fuel qs (r :: rs)).1 = _
          have hsum : (mergeLoopF zq zr fuel qs (r :: rs)).1 =
              ∑ i ∈ posSet qs ∪ posSet (r :: rs),
                (sparseLookup (q :: qs) zq i - sparseLookup (r :: rs) zr i) *
                  (sparseLookup (q :: qs) zq i - sparseLookup (r :: rs) zr i) := by
            rw [iha]
            apply Finset.sum_congr rfl
            intro i hi
            have hne : i ≠ q.1 := fun hh => hq_not_union (hh ▸ hi)
            rw [show q = (q.1, q.2) from rfl, sparseLookup_cons_ne _ _ _ _ _ hne]
          rw [hsum, posSet_cons q qs, Finset.insert_union, Finset.sum_insert hq_not_union,
            show q = (q.1, q.2) from rfl, sparseLookup_cons_self,
            sparseLookup_not_mem _ zr _ hq_not_r]
        · show (mergeLoopF zq zr fuel qs (r :: rs)).2 = _
          rw [posSet_cons q qs, Finset.insert_inter_of_not_mem hq_not_r]
          exact ihb
      · by_cases h2 : r.1 < q.1
        · have hfuel : (q :: qs).length + rs.length ≤ fuel := by
            simp only [List.length_cons]
            omega
          obtain ⟨iha, ihb⟩ := ih (q :: qs) rs hfuel hsq hrs
          have hr_not_q : r.1 ∉ posSet (q :: qs) := by
            apply head_not_mem_posSet (e := r)
            intro b hb
            rcases List.mem_cons.mp hb with rfl | hbb
            · exact h2
            · exact h2.trans (hq_lt b hbb)
          have hr_not_union : r.1 ∉ posSet (q :: qs) ∪ posSet rs := by
            simp only [Finset.mem_union]
            push_neg
            exact ⟨hr_not_q, hrn⟩
          have hunfold : mergeLoopF zq zr (fuel + 1) (q :: qs) (r :: rs) =
              ((r.2 - zq) * (r.2 - zq) + (mergeLoopF zq zr fuel (q :: qs) rs).1,
                (mergeLoopF zq zr fuel (q :: qs) rs).2) := by
            simp [mergeLoopF, h1, h2]
          rw [hunfold]
          constructor
          · show (r.2 - zq) * (r.2 - zq) + (mergeLoopF zq zr fuel (q :: qs) rs).1 = _
            have hsum : (mergeLoopF zq zr fuel (q :: qs) rs).1 =
                ∑ i ∈ posSet (q :: qs) ∪ posSet rs,
                  (sparseLookup (q :: qs) zq i - sparseLookup (r :: rs) zr i) *
                    (sparseLookup (q :: qs) zq i - sparseLookup (r :: rs) zr i) := by
              rw [iha]
              apply Finset.sum_congr rfl
              intro i hi
              have hne : i ≠ r.1 := fun hh => hr_not_union (hh ▸ hi)
              rw [show r = (r.1, r.2) from rfl, sparseLookup_cons_ne _ _ _ _ _ hne]
            rw [hsum, posSet_cons r rs, Finset.union_insert, Finset.sum_insert hr_not_union,
              show r = (r.1, r.2) from rfl, sparseLookup_cons_self,
              sparseLookup_not_mem _ zq _ hr_not_q]
            ring
          · show (mergeLoopF zq zr fuel (q :: qs) rs).2 = _
            rw [posSet_cons r rs, Finset.inter_insert_of_not_mem hr_not_q]
            exact ihb
        · have heq : q.1 = r.1 := le_antisymm (not_lt.mp h2) (not_lt.mp h1)
          have hfuel : qs.length + rs.length ≤ fuel := by omega
          obtain ⟨iha, ihb⟩ := ih qs rs hfuel hqs hrs
          have hq_not_rs : q.1 ∉ posSet rs := heq ▸ hrn
          have hq_not_union : q.1 ∉ posSet qs ∪ posSet rs := by
            simp only [Finset.mem_union]
            push_neg
            exact ⟨hqn, hq_not_rs⟩
          have hunfold : mergeLoopF zq zr (fuel + 1) (q :: qs) (r :: rs) =
              ((q.2 - r.2) * (q.2 - r.2) + (mergeLoopF zq zr fuel qs rs).1,
                (mergeLoopF zq zr fuel qs rs).2 + 1) := by
            simp [mergeLoopF, h1, h2]
          have hlookr : sparseLookup (r :: rs) zr q.1 = r.2 := by
            rw [heq, show r = (r.1, r.2) from rfl, sparseLookup_cons_self]
          have hunion : posSet (q :: qs) ∪ posSet (r :: rs) =
              insert q.1 (posSet qs ∪ posSet rs) := by
            rw [posSet_cons q qs, posSet_cons r rs, ← heq, Finset.insert_union,
              Finset.union_insert, Finset.insert_idem]
          have hinter : posSet (q :: qs) ∩ posSet (r :: rs) =
              insert q.1 (posSet qs ∩ posSet rs) := by
            rw [posSet_cons q qs, posSet_cons r rs, ← heq, Finset.insert_inter_distrib]
          rw [hunfold]
          constructor
          · show (q.2 - r.2) * (q.2 - r.2) + (mergeLoopF zq zr fuel qs rs).1 = _
            have hsum : (mergeLoopF zq zr fuel qs rs).1 =
                ∑ i ∈ posSet qs ∪ posSet rs,
                  (sparseLookup (q :: qs) zq i - sparseLookup (r :: rs) zr i) *
                    (sparseLookup (q :: qs) zq i - sparseLookup (r :: rs) zr i) := by
              rw [iha]
              apply Finset.sum_congr rfl
              intro i hi
              have hneq : i ≠ q.1 := fun hh => hq_not_union (hh ▸ hi)
              have hner : i ≠ r.1 := heq ▸ hneq
              rw [show q = (q.1, q.2) from rfl, sparseLookup_cons_ne _ _ _ _ _ hneq,
                show r = (r.1, r.2) from rfl, sparseLookup_cons_ne _ _ _ _ _ hner]
            rw [hsum, hunion, Finset.sum_insert hq_not_union,
              show q = (q.1, q.2) from rfl, sparseLookup_cons_self, hlookr]
          · show (mergeLoopF zq zr fuel qs rs).2 + 1 = _
            have hq_not_int : q.1 ∉ posSet qs ∩ posSet rs := by
              simp only [Finset.mem_inter]
              push_neg
              intro hq
              exact absurd hq (by exact hqn)
            rw [hinter, Finset.card_insert_of_not_mem hq_not_int, ihb]

/-- C1: the sparse/sparse two-pointer merge strategy — per-position
contributions for unmatched, matched, and untouched positions, the latter via
the closed-form `(N - |sq| - (|sr| - both)) * (zq - zr)²` multiply — returns
exactly the dense/dense baseline `Σ_{i<N} (Q[i] - R[i])²` over exact
arithmetic, for any sorted sparse-plus-fill representations with distinct
positions in `[0, N)` (in particular for standardized vectors). -/
theorem claim_C1_sparse_sparse_merge_equals_dense (N : ℕ)
    (sq : List (ℕ × ℚ)) (zq : ℚ) (sr : List (ℕ × ℚ)) (zr : ℚ)
    (hsq : posStrictSorted sq) (hbq : posBounded N sq)
    (hsr : posStrictSorted sr) (hbr : posBounded N sr) :
    sparseSparseL2 N sq zq sr zr =
      denseDenseL2 N (sparseLookup sq zq) (sparseLookup sr zr) := by
  obtain ⟨ha, hb⟩ := mergeLoopF_spec zq zr (sq.length + sr.length) sq sr le_rfl hsq hsr
  have hUsub : posSet sq ∪ posSet sr ⊆ Finset.range N := by
    intro i hi
    rcases Finset.mem_union.mp hi with hh | hh
    · exact posSet_subset_range N sq hbq hh
    · exact posSet_subset_range N sr hbr hh
  have hcq : (posSet sq).card = sq.length := by
    rw [posSet, List.toFinset_card_of_nodup
      (List.Pairwise.imp ne_of_lt (List.pairwise_map.mpr hsq)), List.length_map]
  have hcr : (posSet sr).card = sr.length := by
    rw [posSet, List.toFinset_card_of_nodup
      (List.Pairwise.imp ne_of_lt (List.pairwise_map.mpr hsr)), List.length_map]
  have h1 : (posSet sq ∪ posSet sr).card + (posSet sq ∩ posSet sr).card =
      sq.length + sr.length := by
    rw [← hcq, ← hcr]
    exact Finset.card_union_add_card_inter (posSet sq) (posSet sr)
  have h3 : (posSet sq ∪ posSet sr).card ≤ N := by
    have := Finset.card_le_card hUsub
    simpa using this
  have h2 : (Finset.range N \ (posSet sq ∪ posSet sr)).card =
      N - (posSet sq ∪ posSet sr).card := by
    rw [Finset.card_sdiff hUsub, Finset.card_range]
  have hz : ((N : ℤ) - (sq.length : ℤ) -
      ((sr.length : ℤ) - ((posSet sq ∩ posSet sr).card : ℤ))) =
      ((Finset.range N \ (posSet sq ∪ posSet sr)).card : ℤ) := by
    omega
  have houtside : ∀ i ∈ Finset.range N \ (posSet sq ∪ posSet sr),
      (sparseLookup sq zq i - sparseLookup sr zr i) *
        (sparseLookup sq zq i - sparseLookup sr zr i) = (zq - zr) * (zq - zr) := by
    intro i hi
    obtain ⟨_, hnot⟩ := Finset.mem_sdiff.mp hi
    rw [Finset.mem_union] at hnot
    push_neg at hnot
    rw [sparseLookup_not_mem _ _ _ hnot.1, sparseLookup_not_mem _ _ _ hnot.2]
  have hrhs : denseDenseL2 N (sparseLookup sq zq) (sparseLookup sr zr) =
      (((Finset.range N \ (posSet sq ∪ posSet sr)).card : ℚ)) *
          ((zq - zr) * (zq - zr)) +
        ∑ i ∈ posSet sq ∪ posSet sr,
          (sparseLookup sq zq i - sparseLookup sr zr i) *
            (sparseLookup sq zq i - sparseLookup sr zr i) := by
    rw [denseDenseL2, ← Finset.sum_sdiff hUsub]
    congr 1
    rw [Finset.sum_congr rfl houtside, Finset.sum_const, nsmul_eq_mul]
  rw [sparseSparseL2, hrhs, ha, hb]
  rw [hz]
  push_cast
  ring

theorem claim_C1_sparse_sparse_merge_equals_dense_witness :
    sparseSparseL2 4 [(1, (1 : ℚ)/2)] 0 [(2, -(1 : ℚ)/2)] 0 =
      denseDenseL2 4 (sparseLookup [(1, (1 : ℚ)/2)] 0)
        (sparseLookup [(2, -(1 : ℚ)/2)] 0) :=
  claim_C1_sparse_sparse_merge_equals_dense 4 [(1, (1 : ℚ)/2)] 0 [(2, -(1 : ℚ)/2)] 0
    (by simp [posStrictSorted]) (by norm_num [posBounded])
    (by simp [posStrictSorted]) (by norm_num [posBounded])

end SparseL2
